import Mathlib

/-!
Verification of `dmap_maker.py` (batch depth-map video conversion).

The script reads videos from an input folder, runs each frame through a
monocular depth-estimation network, normalizes the resulting depth map to
8-bit grayscale, smooths it, resizes it back to the source frame size and
writes it to an output video.  We give a shallow embedding of the script:

* the per-frame numeric post-processing (`visualize_depth`) over exact
  rationals extended with IEEE-754 special values (`FpVal`), so that the
  division-by-zero behaviour on constant frames is modelled faithfully;
* the resize-stage size computation of the preprocessing pipeline built by
  `get_transform` (the `Resize` transform lives in
  `depth_anything/util/transform.py`, which is not part of the sources at
  hand, so it is modelled from the specification);
* the per-video and batch control flow (`process_video`,
  `batch_process_videos`) with an explicit event trace recording resource
  acquisition and release, frames modelled by their spatial dimensions.

The depth network itself, OpenCV decoding and the display subsystem are
external to the script and are abstracted as function parameters.
-/

set_option maxHeartbeats 1000000

namespace DmapMaker

/-- Scalar value of the floating-point computation in `visualize_depth`:
an exact rational (finite arithmetic is modelled exactly) extended with the
IEEE-754 special values NaN, +inf and -inf.  Signed zeros are not
distinguished. -/
inductive FpVal where
  | nan : FpVal
  | inf : FpVal
  | ninf : FpVal
  | fin : ℚ → FpVal
deriving DecidableEq

/-- IEEE-style subtraction: NaN propagates, inf - inf is NaN. -/
def FpVal.sub : FpVal → FpVal → FpVal
  | .nan, _ => .nan
  | _, .nan => .nan
  | .fin a, .fin b => .fin (a - b)
  | .inf, .inf => .nan
  | .ninf, .ninf => .nan
  | .inf, _ => .inf
  | .ninf, _ => .ninf
  | .fin _, .inf => .ninf
  | .fin _, .ninf => .inf

/-- IEEE-style division: 0/0 is NaN, x/0 for x ≠ 0 is a signed infinity,
NaN propagates, inf/inf is NaN. -/
def FpVal.div : FpVal → FpVal → FpVal
  | .nan, _ => .nan
  | _, .nan => .nan
  | .fin a, .fin b =>
      if b = 0 then (if a = 0 then .nan else if 0 < a then .inf else .ninf)
      else .fin (a / b)
  | .inf, .inf => .nan
  | .inf, .ninf => .nan
  | .ninf, .inf => .nan
  | .ninf, .ninf => .nan
  | .inf, .fin b => if 0 ≤ b then .inf else .ninf
  | .ninf, .fin b => if 0 ≤ b then .ninf else .inf
  | .fin _, .inf => .fin 0
  | .fin _, .ninf => .fin 0

/-- IEEE-style multiplication: NaN propagates, inf * 0 is NaN. -/
def FpVal.mul : FpVal → FpVal → FpVal
  | .nan, _ => .nan
  | _, .nan => .nan
  | .fin a, .fin b => .fin (a * b)
  | .inf, .inf => .inf
  | .inf, .ninf => .ninf
  | .ninf, .inf => .ninf
  | .ninf, .ninf => .inf
  | .inf, .fin b => if b = 0 then .nan else if 0 < b then .inf else .ninf
  | .fin a, .inf => if a = 0 then .nan else if 0 < a then .inf else .ninf
  | .ninf, .fin b => if b = 0 then .nan else if 0 < b then .ninf else .inf
  | .fin a, .ninf => if a = 0 then .nan else if 0 < a then .ninf else .inf

/-- Minimum of the elements of a depth tensor, flattened to a list.
Embeds `depth_rescaled.min()` (a fold of `min` over the elements; numpy
requires a nonempty array, the `[]` case is an arbitrary default). -/
def listMin : List ℚ → ℚ
  | [] => 0
  | x :: xs => xs.foldl min x

/-- Maximum of the elements of a depth tensor, flattened to a list.
Embeds `depth_rescaled.max()`. -/
def listMax : List ℚ → ℚ
  | [] => 0
  | x :: xs => xs.foldl max x

/-- Truncation toward zero, the rounding performed by numpy's
`astype(np.uint8)` C cast on in-range finite values. -/
def ratTrunc (q : ℚ) : ℤ := if 0 ≤ q then ⌊q⌋ else ⌈q⌉

/-- Embedding of `visualize_depth` (src/dmap_maker.py lines 106-109) on a
flattened depth tensor:
`(depth - depth.min()) / (depth.max() - depth.min()) * 255.0`, then
`astype(np.uint8)`.  The arithmetic is the IEEE-style `FpVal` arithmetic;
the final cast to `uint8` is platform behaviour (undefined in C for NaN,
infinite or out-of-range inputs), so it is passed in as a parameter
`castU8`. -/
def visualize_depth (castU8 : FpVal → ℕ) (depth : List ℚ) : List ℕ :=
  let dmin := listMin depth
  let dmax := listMax depth
  depth.map fun v =>
    castU8 (FpVal.mul
      (FpVal.div (FpVal.sub (FpVal.fin v) (FpVal.fin dmin))
        (FpVal.sub (FpVal.fin dmax) (FpVal.fin dmin)))
      (FpVal.fin 255))

lemma foldl_min_le_seed (xs : List ℚ) (a : ℚ) : xs.foldl min a ≤ a := by
  induction xs generalizing a with
  | nil => exact le_refl a
  | cons x xs ih =>
      calc (x :: xs).foldl min a = xs.foldl min (min a x) := rfl
        _ ≤ min a x := ih (min a x)
        _ ≤ a := min_le_left a x

lemma foldl_min_le_mem (xs : List ℚ) (a x : ℚ) (hx : x ∈ xs) :
    xs.foldl min a ≤ x := by
  induction xs generalizing a with
  | nil => cases hx
  | cons y ys ih =>
      rcases List.mem_cons.mp hx with h | h
      · subst h
        calc (x :: ys).foldl min a = ys.foldl min (min a x) := rfl
          _ ≤ min a x := foldl_min_le_seed ys (min a x)
          _ ≤ x := min_le_right a x
      · exact ih (min a y) h

lemma seed_le_foldl_max (xs : List ℚ) (a : ℚ) : a ≤ xs.foldl max a := by
  induction xs generalizing a with
  | nil => exact le_refl a
  | cons x xs ih =>
      calc a ≤ max a x := le_max_left a x
        _ ≤ xs.foldl max (max a x) := ih (max a x)
        _ = (x :: xs).foldl max a := rfl

lemma mem_le_foldl_max (xs : List ℚ) (a x : ℚ) (hx : x ∈ xs) :
    x ≤ xs.foldl max a := by
  induction xs generalizing a with
  | nil => cases hx
  | cons y ys ih =>
      rcases List.mem_cons.mp hx with h | h
      · subst h
        calc x ≤ max a x := le_max_right a x
          _ ≤ ys.foldl max (max a x) := seed_le_foldl_max ys (max a x)
          _ = (x :: ys).foldl max a := rfl
      · exact ih (max a y) h

lemma listMin_le_mem (d : List ℚ) (x : ℚ) (hx : x ∈ d) : listMin d ≤ x := by
  cases d with
  | nil => cases hx
  | cons y ys =>
      rcases List.mem_cons.mp hx with h | h
      · subst h; exact foldl_min_le_seed ys x
      · exact foldl_min_le_mem ys y x h

lemma mem_le_listMax (d : List ℚ) (x : ℚ) (hx : x ∈ d) : x ≤ listMax d := by
  cases d with
  | nil => cases hx
  | cons y ys =>
      rcases List.mem_cons.mp hx with h | h
      · subst h; exact seed_le_foldl_max ys x
      · exact mem_le_foldl_max ys y x h

lemma listMin_replicate (n : ℕ) (c : ℚ) :
    listMin (List.replicate (n + 1) c) = c := by
  induction n with
  | zero => rfl
  | succ m ih =>
      have h1 : List.replicate (m + 2) c = c :: List.replicate (m + 1) c := rfl
      have h2 : List.replicate (m + 1) c = c :: List.replicate m c := rfl
      simp only [listMin, h1, h2, List.foldl_cons, min_self] at ih ⊢
      exact ih

lemma listMax_replicate (n : ℕ) (c : ℚ) :
    listMax (List.replicate (n + 1) c) = c := by
  induction n with
  | zero => rfl
  | succ m ih =>
      have h1 : List.replicate (m + 2) c = c :: List.replicate (m + 1) c := rfl
      have h2 : List.replicate (m + 1) c = c :: List.replicate m c := rfl
      simp only [listMax, h1, h2, List.foldl_cons, max_self] at ih ⊢
      exact ih

/-- The claim of C2: on a constant (all values equal) nonempty depth frame,
min-max normalization divides zero by zero, which the floating-point
semantics turns into NaN for every pixel; every pixel of the output is
therefore the same value, the platform's `uint8` cast of NaN, identically
for every constant frame (on x86 platforms this cast yields 0, i.e. an
all-zero image).  No error is raised. -/
theorem visualize_depth_constant_frame (castU8 : FpVal → ℕ) (c : ℚ) (n : ℕ) :
    visualize_depth castU8 (List.replicate (n + 1) c) =
      List.replicate (n + 1) (castU8 FpVal.nan) := by
  have hmin := listMin_replicate n c
  have hmax := listMax_replicate n c
  have hval : ∀ v : ℚ, v = c →
      castU8 (FpVal.mul
        (FpVal.div (FpVal.sub (FpVal.fin v) (FpVal.fin c))
          (FpVal.sub (FpVal.fin c) (FpVal.fin c)))
        (FpVal.fin 255)) = castU8 FpVal.nan := by
    intro v hv
    subst hv
    simp [FpVal.sub, FpVal.div, FpVal.mul]
  unfold visualize_depth
  rw [hmin, hmax]
  rw [List.map_replicate]
  rw [hval c rfl]

lemma ratTrunc_of_nonneg (q : ℚ) (hq : 0 ≤ q) : ratTrunc q = ⌊q⌋ := by
  simp [ratTrunc, hq]

lemma visualize_depth_pixel (castU8 : FpVal → ℕ) (d : List ℚ)
    (hlt : listMin d < listMax d) (v : ℚ) (hv : v ∈ d) :
    castU8 (FpVal.mul
      (FpVal.div (FpVal.sub (FpVal.fin v) (FpVal.fin (listMin d)))
        (FpVal.sub (FpVal.fin (listMax d)) (FpVal.fin (listMin d))))
      (FpVal.fin 255)) =
      castU8 (FpVal.fin ((v - listMin d) / (listMax d - listMin d) * 255)) := by
  have hden : listMax d - listMin d ≠ 0 := sub_ne_zero.mpr (ne_of_gt hlt)
  simp [FpVal.sub, FpVal.div, FpVal.mul, hden]

lemma visualize_depth_pixel_bounds (d : List ℚ)
    (hlt : listMin d < listMax d) (v : ℚ) (hv : v ∈ d) :
    0 ≤ (v - listMin d) / (listMax d - listMin d) * 255 ∧
      (v - listMin d) / (listMax d - listMin d) * 255 ≤ 255 := by
  have hdenpos : 0 < listMax d - listMin d := sub_pos.mpr hlt
  have hge : 0 ≤ v - listMin d := sub_nonneg.mpr (listMin_le_mem d v hv)
  have hle : v - listMin d ≤ listMax d - listMin d :=
    sub_le_sub_right (mem_le_listMax d v hv) _
  constructor
  · exact mul_nonneg (div_nonneg hge (le_of_lt hdenpos)) (by norm_num)
  · have h1 : (v - listMin d) / (listMax d - listMin d) ≤ 1 :=
      (div_le_one hdenpos).mpr hle
    calc (v - listMin d) / (listMax d - listMin d) * 255
        ≤ 1 * 255 := mul_le_mul_of_nonneg_right h1 (by norm_num)
      _ = 255 := by norm_num

/-- The claim of C9: when the frame's maximum depth exceeds its minimum,
`visualize_depth` maps each value `v` to
`(v - min) / (max - min) * 255` truncated to an integer; every output pixel
is at most 255 (hence an 8-bit value), a pixel holding the frame minimum
is mapped to 0 and a pixel holding the frame maximum to 255.  The cast
parameter is assumed to perform the in-range `uint8` truncation of
`astype(np.uint8)`. -/
theorem visualize_depth_minmax_rescale (castU8 : FpVal → ℕ) (d : List ℚ)
    (hcast : ∀ q : ℚ, 0 ≤ q → q ≤ 255 → castU8 (FpVal.fin q) = (ratTrunc q).toNat)
    (hlt : listMin d < listMax d) :
    (∀ p ∈ visualize_depth castU8 d, p ≤ 255) ∧
    (∀ i v, d.get? i = some v → (visualize_depth castU8 d).get? i =
        some ((ratTrunc ((v - listMin d) / (listMax d - listMin d) * 255)).toNat)) ∧
    (∀ i, d.get? i = some (listMin d) →
        (visualize_depth castU8 d).get? i = some 0) ∧
    (∀ i, d.get? i = some (listMax d) →
        (visualize_depth castU8 d).get? i = some 255) := by
  have hpix : ∀ v ∈ d,
      castU8 (FpVal.mul
        (FpVal.div (FpVal.sub (FpVal.fin v) (FpVal.fin (listMin d)))
          (FpVal.sub (FpVal.fin (listMax d)) (FpVal.fin (listMin d))))
        (FpVal.fin 255)) =
        (ratTrunc ((v - listMin d) / (listMax d - listMin d) * 255)).toNat := by
    intro v hv
    obtain ⟨h0, h255⟩ := visualize_depth_pixel_bounds d hlt v hv
    rw [visualize_depth_pixel castU8 d hlt v hv, hcast _ h0 h255]
  have hget : ∀ i v, d.get? i = some v →
      (visualize_depth castU8 d).get? i =
        some ((ratTrunc ((v - listMin d) / (listMax d - listMin d) * 255)).toNat) := by
    intro i v hiv
    have hv : v ∈ d := List.get?_mem hiv
    unfold visualize_depth
    rw [List.get?_map, hiv]
    simp only [Option.map_some']
    rw [hpix v hv]
  refine ⟨?_, hget, ?_, ?_⟩
  · intro p hp
    unfold visualize_depth at hp
    obtain ⟨v, hv, hpv⟩ := List.mem_map.mp hp
    rw [hpix v hv] at hpv
    obtain ⟨h0, h255⟩ := visualize_depth_pixel_bounds d hlt v hv
    rw [← hpv]
    rw [Int.toNat_le, ratTrunc_of_nonneg _ h0]
    calc (⌊(v - listMin d) / (listMax d - listMin d) * 255⌋ : ℤ)
        ≤ ⌊(255 : ℚ)⌋ := Int.floor_le_floor h255
      _ = 255 := by norm_num
      _ = ((255 : ℕ) : ℤ) := by norm_num
  · intro i hi
    have h := hget i (listMin d) hi
    rw [h]
    have : (listMin d - listMin d) / (listMax d - listMin d) * 255 = 0 := by
      rw [sub_self, zero_div, zero_mul]
    rw [this]
    norm_num [ratTrunc]
  · intro i hi
    have h := hget i (listMax d) hi
    rw [h]
    have hden : listMax d - listMin d ≠ 0 := sub_ne_zero.mpr (ne_of_gt hlt)
    have : (listMax d - listMin d) / (listMax d - listMin d) * 255 = 255 := by
      rw [div_self hden, one_mul]
    rw [this]
    decide

/-- Witness for C9, at the concrete depth frame `[0, 2]` and the
truncating cast. -/
theorem visualize_depth_minmax_rescale_witness :
    (visualize_depth
        (fun x => match x with | FpVal.fin q => (ratTrunc q).toNat | _ => 0)
        [0, 2]).get? 0 = some 0 ∧
    (visualize_depth
        (fun x => match x with | FpVal.fin q => (ratTrunc q).toNat | _ => 0)
        [0, 2]).get? 1 = some 255 := by
  have h := visualize_depth_minmax_rescale
    (fun x => match x with | FpVal.fin q => (ratTrunc q).toNat | _ => 0)
    [0, 2] (fun q _ _ => rfl) (by norm_num [listMin, listMax])
  refine ⟨?_, ?_⟩
  · have h0 := h.2.2.1 0 (by norm_num [listMin])
    exact h0
  · have h1 := h.2.2.2 1 (by norm_num [listMax])
    exact h1

/-- Modelled from the spec: the snapping step of the `Resize` transform
used by `get_transform` (src/dmap_maker.py lines 37-43).  The transform
class itself lives in `depth_anything/util/transform.py`, which is not
among the sources at hand; per the spec (§4.3) the resize snaps each
dimension to a multiple of the patch size (14), never dropping below the
fixed target, rounding to the nearest multiple otherwise. -/
def constrain_to_multiple_of (multiple minVal : ℕ) (x : ℚ) : ℤ :=
  let y : ℤ := round (x / (multiple : ℚ)) * (multiple : ℤ)
  if y < (minVal : ℤ) then ⌈x / (multiple : ℚ)⌉ * (multiple : ℤ) else y

/-- Modelled from the spec: the size computation of the `Resize` transform
with `keep_aspect_ratio=True` and `resize_method=lower_bound` — scale both
axes by one common factor, chosen so that the shorter dimension reaches the
target, then snap each axis to a multiple of `multiple` (not below the
target).  Returns (new width, new height). -/
def resize_get_size (target multiple w h : ℕ) : ℤ × ℤ :=
  let scale_width : ℚ := (target : ℚ) / (w : ℚ)
  let scale_height : ℚ := (target : ℚ) / (h : ℚ)
  let scale : ℚ := max scale_width scale_height
  (constrain_to_multiple_of multiple target (scale * (w : ℚ)),
   constrain_to_multiple_of multiple target (scale * (h : ℚ)))

/-- Size produced by the resize stage built in `get_transform`
(src/dmap_maker.py lines 37-43): `Resize(width=532, height=532,
keep_aspect_ratio=True, ensure_multiple_of=14, resize_method=lower_bound)`. -/
def get_transform_size (w h : ℕ) : ℤ × ℤ := resize_get_size 532 14 w h

lemma constrain_dvd (multiple minVal : ℕ) (x : ℚ) :
    (multiple : ℤ) ∣ constrain_to_multiple_of multiple minVal x := by
  unfold constrain_to_multiple_of
  by_cases h : round (x / (multiple : ℚ)) * (multiple : ℤ) < (minVal : ℤ)
  · simp only [h, if_true]
    exact dvd_mul_left _ _
  · simp only [h, if_false]
    exact dvd_mul_left _ _

lemma constrain_ge (multiple minVal : ℕ) (hm : 0 < multiple) (x : ℚ)
    (hx : (minVal : ℚ) ≤ x) :
    (minVal : ℤ) ≤ constrain_to_multiple_of multiple minVal x := by
  unfold constrain_to_multiple_of
  by_cases h : round (x / (multiple : ℚ)) * (multiple : ℤ) < (minVal : ℤ)
  · simp only [h, if_true]
    have hm0 : (0 : ℚ) < (multiple : ℚ) := by exact_mod_cast hm
    have hceil : x ≤ (⌈x / (multiple : ℚ)⌉ : ℚ) * (multiple : ℚ) := by
      calc x = x / (multiple : ℚ) * (multiple : ℚ) :=
            (div_mul_cancel₀ x (ne_of_gt hm0)).symm
        _ ≤ (⌈x / (multiple : ℚ)⌉ : ℚ) * (multiple : ℚ) :=
            mul_le_mul_of_nonneg_right (Int.le_ceil _) (le_of_lt hm0)
    have : (minVal : ℚ) ≤ ((⌈x / (multiple : ℚ)⌉ * (multiple : ℤ) : ℤ) : ℚ) := by
      push_cast
      exact le_trans hx hceil
    exact_mod_cast this
  · simp only [h, if_false]
    exact le_of_not_lt h

lemma constrain_532_exact : constrain_to_multiple_of 14 532 532 = 532 := by
  unfold constrain_to_multiple_of
  have hr : round ((532 : ℚ) / 14) = 38 := by norm_num [round_eq]
  norm_num [hr]

lemma get_transform_size_case (w h : ℕ) (hw : 0 < w) (hh : 0 < h)
    (hwh : w ≤ h) :
    (get_transform_size w h).1 = 532 ∧ (532 : ℤ) ≤ (get_transform_size w h).2 := by
  have hw0 : (0 : ℚ) < (w : ℚ) := by exact_mod_cast hw
  have hh0 : (0 : ℚ) < (h : ℚ) := by exact_mod_cast hh
  have hwh0 : (w : ℚ) ≤ (h : ℚ) := by exact_mod_cast hwh
  have hmax : max ((532 : ℚ) / (w : ℚ)) ((532 : ℚ) / (h : ℚ)) = (532 : ℚ) / (w : ℚ) :=
    max_eq_left (div_le_div_of_nonneg_left (by norm_num) hw0 hwh0)
  have hsw : (532 : ℚ) / (w : ℚ) * (w : ℚ) = 532 :=
    div_mul_cancel₀ _ (ne_of_gt hw0)
  have hsh : (532 : ℚ) ≤ (532 : ℚ) / (w : ℚ) * (h : ℚ) := by
    calc (532 : ℚ) = (532 : ℚ) / (w : ℚ) * (w : ℚ) := hsw.symm
      _ ≤ (532 : ℚ) / (w : ℚ) * (h : ℚ) :=
          mul_le_mul_of_nonneg_left hwh0 (le_of_lt (div_pos (by norm_num) hw0))
  constructor
  · show constrain_to_multiple_of 14 532
      (max ((532 : ℚ) / (w : ℚ)) ((532 : ℚ) / (h : ℚ)) * (w : ℚ)) = 532
    rw [hmax, hsw]
    exact constrain_532_exact
  · show (532 : ℤ) ≤ constrain_to_multiple_of 14 532
      (max ((532 : ℚ) / (w : ℚ)) ((532 : ℚ) / (h : ℚ)) * (h : ℚ))
    rw [hmax]
    exact constrain_ge 14 532 (by norm_num) _ hsh

lemma get_transform_size_case' (w h : ℕ) (hw : 0 < w) (hh : 0 < h)
    (hwh : h ≤ w) :
    (532 : ℤ) ≤ (get_transform_size w h).1 ∧ (get_transform_size w h).2 = 532 := by
  have hw0 : (0 : ℚ) < (w : ℚ) := by exact_mod_cast hw
  have hh0 : (0 : ℚ) < (h : ℚ) := by exact_mod_cast hh
  have hwh0 : (h : ℚ) ≤ (w : ℚ) := by exact_mod_cast hwh
  have hmax : max ((532 : ℚ) / (w : ℚ)) ((532 : ℚ) / (h : ℚ)) = (532 : ℚ) / (h : ℚ) :=
    max_eq_right (div_le_div_of_nonneg_left (by norm_num) hh0 hwh0)
  have hsh : (532 : ℚ) / (h : ℚ) * (h : ℚ) = 532 :=
    div_mul_cancel₀ _ (ne_of_gt hh0)
  have hsw : (532 : ℚ) ≤ (532 : ℚ) / (h : ℚ) * (w : ℚ) := by
    calc (532 : ℚ) = (532 : ℚ) / (h : ℚ) * (h : ℚ) := hsh.symm
      _ ≤ (532 : ℚ) / (h : ℚ) * (w : ℚ) :=
          mul_le_mul_of_nonneg_left hwh0 (le_of_lt (div_pos (by norm_num) hh0))
  constructor
  · show (532 : ℤ) ≤ constrain_to_multiple_of 14 532
      (max ((532 : ℚ) / (w : ℚ)) ((532 : ℚ) / (h : ℚ)) * (w : ℚ))
    rw [hmax]
    exact constrain_ge 14 532 (by norm_num) _ hsw
  · show constrain_to_multiple_of 14 532
      (max ((532 : ℚ) / (w : ℚ)) ((532 : ℚ) / (h : ℚ)) * (h : ℚ)) = 532
    rw [hmax, hsh]
    exact constrain_532_exact

/-- The claim of C3: for every positive input frame size, the resize stage
of the pipeline built by `get_transform` produces dimensions that are both
multiples of 14, both at least the fixed target 532, with the shorter
output dimension exactly the target; aspect ratio is preserved in that one
common scale factor is applied to both axes before snapping. -/
theorem get_transform_resize_sound (w h : ℕ) (hw : 0 < w) (hh : 0 < h) :
    (14 : ℤ) ∣ (get_transform_size w h).1 ∧
    (14 : ℤ) ∣ (get_transform_size w h).2 ∧
    min (get_transform_size w h).1 (get_transform_size w h).2 = 532 ∧
    ∃ s : ℚ, 0 < s ∧
      get_transform_size w h =
        (constrain_to_multiple_of 14 532 (s * (w : ℚ)),
         constrain_to_multiple_of 14 532 (s * (h : ℚ))) := by
  refine ⟨constrain_dvd 14 532 _, constrain_dvd 14 532 _, ?_, ?_⟩
  · rcases le_total w h with hwh | hwh
    · obtain ⟨h1, h2⟩ := get_transform_size_case w h hw hh hwh
      rw [h1]
      exact min_eq_left h2
    · obtain ⟨h1, h2⟩ := get_transform_size_case' w h hw hh hwh
      rw [h2]
      exact min_eq_right h1
  · refine ⟨max ((532 : ℚ) / (w : ℚ)) ((532 : ℚ) / (h : ℚ)), ?_, rfl⟩
    have hw0 : (0 : ℚ) < (w : ℚ) := by exact_mod_cast hw
    exact lt_max_of_lt_left (div_pos (by norm_num) hw0)

/-- Witness for C3 at the concrete input size 1 × 1. -/
theorem get_transform_resize_sound_witness :
    (14 : ℤ) ∣ (get_transform_size 1 1).1 ∧
    (14 : ℤ) ∣ (get_transform_size 1 1).2 ∧
    min (get_transform_size 1 1).1 (get_transform_size 1 1).2 = 532 := by
  have h := get_transform_resize_sound 1 1 (by decide) (by decide)
  exact ⟨h.1, h.2.1, h.2.2.1⟩

/-- A decoded video frame, modelled by its spatial dimensions
(`frame.shape[0]` is the height, `frame.shape[1]` the width). -/
structure Frame where
  height : ℕ
  width : ℕ
deriving DecidableEq

/-- A single-channel image (depth map), modelled by its spatial
dimensions. -/
structure Image where
  height : ℕ
  width : ℕ
deriving DecidableEq

/-- Embedding of `apply_smoothing` (line 112-113): a 5×5 Gaussian blur,
which preserves the spatial dimensions of its input. -/
def apply_smoothing (depth_grayscale : Image) : Image := depth_grayscale

/-- Embedding of `resize_depth_to_frame` (lines 116-117):
`cv2.resize(depth_grayscale, (frame.shape[1], frame.shape[0]))` — resize to
the width and height of the given frame. -/
def resize_depth_to_frame (depth_grayscale : Image) (frame : Frame) : Image :=
  { height := frame.height, width := frame.width }

/-- Embedding of `process_frame` (lines 86-91).  The composite of
`transform_image`, `estimate_depth` and `visualize_depth` — colour
conversion, the preprocessing pipeline, the external depth network and the
8-bit normalization — is abstracted as the parameter `estimate`, which
yields a grayscale depth image of the model's internal resolution, or
fails (raises).  The final stages, smoothing and the resize back to the
source frame's dimensions, are explicit. -/
def process_frame (estimate : Frame → Except (List Char) Image)
    (frame : Frame) : Except (List Char) Image :=
  match estimate frame with
  | Except.error e => Except.error e
  | Except.ok depth_grayscale =>
      Except.ok (resize_depth_to_frame (apply_smoothing depth_grayscale) frame)

/-- An opened `cv2.VideoCapture`: whether the open succeeded, the metadata
the script queries (`CAP_PROP_FRAME_COUNT`, `CAP_PROP_FPS`,
`CAP_PROP_FRAME_WIDTH`, `CAP_PROP_FRAME_HEIGHT`), and the stream of frames
successive `cap.read()` calls yield before the first failed read. -/
structure Video where
  opened : Bool
  frameCount : ℕ
  fps : ℚ
  width : ℕ
  height : ℕ
  frames : List Frame
deriving DecidableEq

/-- Configuration of the `cv2.VideoWriter` created by
`initialize_video_writer` (lines 79-83). -/
structure WriterConfig where
  path : List Char
  fourcc : List Char
  fps : ℚ
  width : ℕ
  height : ℕ
  isColor : Bool
deriving DecidableEq

/-- Embedding of `initialize_video_writer` (lines 79-83): fourcc `mp4v`,
frame rate and spatial dimensions taken from the input capture's metadata,
`isColor=False` (single-channel grayscale frames). -/
def initialize_video_writer (v : Video) (output_video_path : List Char) :
    WriterConfig :=
  { path := output_video_path, fourcc := "mp4v".toList, fps := v.fps,
    width := v.width, height := v.height, isColor := false }

/-- Observable resource events of the per-video loop and its cleanup. -/
inductive Event where
  | readOk : Event
  | readFail : Event
  | frameWritten : Event
  | frameShown : Event
  | capReleased : Event
  | writerReleased : Event
  | windowsDestroyed : Event
deriving DecidableEq

/-- Embedding of `cv2.waitKey(1) & 0xFF == ord('q')` (line 71).  `waitKey`
returns -1 when no key is pressed; Python's `& 0xFF` on an arbitrary int is
the mathematical remainder modulo 256, and `ord('q') = 113`. -/
def quit_key_pressed (k : ℤ) : Bool := k % 256 = 113

/-- Result of running the per-frame loop of `process_video`: the frames
written to the output video, the emitted events, and the exception raised
mid-loop, if any. -/
structure LoopResult where
  written : List Image
  events : List Event
  error : Option (List Char)
deriving DecidableEq

/-- Embedding of the `for _ in range(total_frames)` loop of `process_video`
(lines 64-72).  `n` is the remaining iteration budget (`total_frames` at
entry), `fs` the frames the capture still yields, `keys` the upcoming
`waitKey` results.  Each iteration reads a frame (breaking if the read
fails), processes and writes it, shows it, and breaks if the quit key is
pressed; an exception from `process_frame` aborts the loop and propagates. -/
def frame_loop (estimate : Frame → Except (List Char) Image) :
    ℕ → List Frame → List ℤ → LoopResult
  | 0, _, _ => { written := [], events := [], error := none }
  | _ + 1, [], _ => { written := [], events := [Event.readFail], error := none }
  | n + 1, f :: fs, keys =>
      match process_frame estimate f with
      | Except.error e =>
          { written := [], events := [Event.readOk], error := some e }
      | Except.ok img =>
          if quit_key_pressed (keys.headD (-1)) then
            { written := [img],
              events := [Event.readOk, Event.frameWritten, Event.frameShown],
              error := none }
          else
            let r := frame_loop estimate n fs keys.tail
            { written := img :: r.written,
              events := Event.readOk :: Event.frameWritten ::
                Event.frameShown :: r.events,
              error := r.error }

/-- Error message of `raise IOError(f"Cannot open video {video_path}")`
(line 58). -/
def cannot_open_msg (video_path : List Char) : List Char :=
  "Cannot open video ".toList ++ video_path

/-- Outcome of one `process_video` call: the exception that propagated (if
any), the frames written, the writer configured for the output file (none
when the capture failed to open, so no output file is created), and the
event trace. -/
structure RunOutcome where
  error : Option (List Char)
  written : List Image
  writerCfg : Option WriterConfig
  trace : List Event
deriving DecidableEq

/-- Embedding of `process_video` (lines 55-76).  An unopenable capture
raises before any resource other than the capture is acquired; otherwise
the writer is initialized, the frame loop runs (guarded by `try`), and the
`finally` block releases the capture, the writer and the preview windows on
every exit path, after which a mid-loop exception, if any, propagates. -/
def process_video (estimate : Frame → Except (List Char) Image)
    (keys : List ℤ) (video_path output_video_path : List Char) (v : Video) :
    RunOutcome :=
  if v.opened = false then
    { error := some (cannot_open_msg video_path), written := [],
      writerCfg := none, trace := [] }
  else
    let cfg := initialize_video_writer v output_video_path
    let r := frame_loop estimate v.frameCount v.frames keys
    { error := r.error, written := r.written, writerCfg := some cfg,
      trace := r.events ++
        [Event.capReleased, Event.writerReleased, Event.windowsDestroyed] }

/-- Lowercasing of a filename, embedding Python's `str.lower()` (ASCII
letters, as in the extensions compared). -/
def strLower (s : List Char) : List Char := s.map Char.toLower

/-- Embedding of the extension test on line 47:
`f.lower().endswith(('.mp4', '.avi', '.mov'))`. -/
def is_video_file (name : List Char) : Bool :=
  List.isSuffixOf ".mp4".toList (strLower name) ||
  List.isSuffixOf ".avi".toList (strLower name) ||
  List.isSuffixOf ".mov".toList (strLower name)

/-- Embedding of the list comprehension on line 47: keep the directory
entries whose lowercased name ends in one of the three video extensions. -/
def list_video_files (names : List (List Char)) : List (List Char) :=
  names.filter is_video_file

/-- Embedding of `os.path.join` for a directory and a plain file name. -/
def path_join (dir name : List Char) : List Char := dir ++ ('/' :: name)

/-- Embedding of `f"processed_{filename}"` (line 51). -/
def processed_name (filename : List Char) : List Char :=
  "processed_".toList ++ filename

/-- One item of the batch: the output path passed to the writer and the
outcome of processing that video. -/
structure BatchEntry where
  outputPath : List Char
  outcome : RunOutcome
deriving DecidableEq

/-- Sequential processing of the filtered file list (lines 49-52).  `fsys`
maps a path to the capture opened on it and `keys` gives the key presses
observed while processing each file.  An exception from `process_video`
propagates, aborting the remaining files. -/
def run_videos (estimate : Frame → Except (List Char) Image)
    (fsys : List Char → Video) (keys : List Char → List ℤ)
    (input_folder output_folder : List Char) :
    List (List Char) → List BatchEntry × Option (List Char)
  | [] => ([], none)
  | filename :: rest =>
      let video_path := path_join input_folder filename
      let output_video_path := path_join output_folder (processed_name filename)
      let oc := process_video estimate (keys filename) video_path
        output_video_path (fsys video_path)
      match oc.error with
      | some e => ([{ outputPath := output_video_path, outcome := oc }], some e)
      | none =>
          let r := run_videos estimate fsys keys input_folder output_folder rest
          ({ outputPath := output_video_path, outcome := oc } :: r.1, r.2)

/-- Embedding of `batch_process_videos` (lines 46-52): filter the directory
listing by extension, then process each file in turn. -/
def batch_process_videos (estimate : Frame → Except (List Char) Image)
    (fsys : List Char → Video) (keys : List Char → List ℤ)
    (input_folder output_folder : List Char)
    (listing : List (List Char)) : List BatchEntry × Option (List Char) :=
  run_videos estimate fsys keys input_folder output_folder
    (list_video_files listing)

/-- An `estimate` stage that never raises, from a total depth model. -/
def ok_estimate (model : Frame → Image) :
    Frame → Except (List Char) Image :=
  fun f => Except.ok (model f)

lemma process_frame_ok_dims (estimate : Frame → Except (List Char) Image)
    (f : Frame) (img : Image) (h : process_frame estimate f = Except.ok img) :
    img = { height := f.height, width := f.width } := by
  unfold process_frame at h
  cases hest : estimate f with
  | error e => rw [hest] at h; cases h
  | ok g =>
      rw [hest] at h
      injection h with h
      exact h.symm

lemma frame_loop_spec (estimate : Frame → Except (List Char) Image) :
    ∀ (n : ℕ) (fs : List Frame) (keys : List ℤ),
      (frame_loop estimate n fs keys).written.length ≤ n ∧
      (frame_loop estimate n fs keys).written.length ≤ fs.length ∧
      (frame_loop estimate n fs keys).written =
        (fs.take (frame_loop estimate n fs keys).written.length).map
          (fun f => ({ height := f.height, width := f.width } : Image)) := by
  intro n
  induction n with
  | zero => intro fs keys; simp [frame_loop]
  | succ n ih =>
      intro fs keys
      cases fs with
      | nil => simp [frame_loop]
      | cons f fs =>
          cases hpf : process_frame estimate f with
          | error e => simp [frame_loop, hpf]
          | ok img =>
              have himg : img = { height := f.height, width := f.width } :=
                process_frame_ok_dims estimate f img hpf
              simp only [frame_loop, hpf]
              by_cases hq : quit_key_pressed (keys.headD (-1)) = true
              · rw [if_pos hq]
                refine ⟨Nat.succ_le_succ (Nat.zero_le n),
                  Nat.succ_le_succ (Nat.zero_le fs.length), ?_⟩
                simp [himg]
              · rw [if_neg hq]
                obtain ⟨ih1, ih2, ih3⟩ := ih fs keys.tail
                refine ⟨Nat.succ_le_succ ih1, Nat.succ_le_succ ih2, ?_⟩
                show img :: (frame_loop estimate n fs keys.tail).written =
                  ((f :: fs).take
                      (img :: (frame_loop estimate n fs keys.tail).written).length).map
                    (fun f => ({ height := f.height, width := f.width } : Image))
                rw [List.length_cons, List.take_succ_cons, List.map_cons, himg]
                exact congrArg _ ih3

/-- The claim of C1: for every input video (any frame stream, any reported
frame count, any key presses, any depth model, even a failing one), the
frames written to the output video number at most the input's frames, and
the written frames are exactly the dimensions-images of the corresponding
initial segment of the source frames — every written frame has precisely
the height and width of its source frame, whatever the model's internal
resolution was. -/
theorem process_video_written_dims
    (estimate : Frame → Except (List Char) Image) (keys : List ℤ)
    (video_path output_video_path : List Char) (v : Video) :
    (process_video estimate keys video_path output_video_path v).written.length
        ≤ v.frames.length ∧
    (process_video estimate keys video_path output_video_path v).written =
      (v.frames.take
          (process_video estimate keys video_path output_video_path v).written.length).map
        (fun f => ({ height := f.height, width := f.width } : Image)) := by
  unfold process_video
  by_cases ho : v.opened = false
  · simp [ho]
  · simp only [ho, Bool.false_eq_true, if_false]
    obtain ⟨h1, h2, h3⟩ := frame_loop_spec estimate v.frameCount v.frames keys
    exact ⟨h2, h3⟩

lemma frame_loop_take (estimate : Frame → Except (List Char) Image) :
    ∀ (n : ℕ) (fs : List Frame) (keys : List ℤ),
      frame_loop estimate n fs keys = frame_loop estimate n (fs.take n) keys := by
  intro n
  induction n with
  | zero => intro fs keys; rfl
  | succ n ih =>
      intro fs keys
      cases fs with
      | nil => rfl
      | cons f fs =>
          rw [List.take_succ_cons]
          cases hpf : process_frame estimate f with
          | error e => simp [frame_loop, hpf]
          | ok img =>
              simp only [frame_loop, hpf]
              by_cases hq : quit_key_pressed (keys.headD (-1)) = true
              · rw [if_pos hq, if_pos hq]
              · rw [if_neg hq, if_neg hq, ih fs keys.tail]

/-- The claim of C10: the per-frame loop is budgeted by the reported frame
count read from the capture's metadata at open time — at most that many
frames are written, and the whole outcome of `process_video` (frames,
events, errors) is unchanged if the stream is cut to its first
`frameCount` frames: frames beyond the reported count are never read,
processed or written.  The loop is a structurally terminating recursion on
this budget. -/
theorem frame_loop_bounded_by_reported_count
    (estimate : Frame → Except (List Char) Image) (keys : List ℤ)
    (video_path output_video_path : List Char) (v : Video) :
    (process_video estimate keys video_path output_video_path v).written.length
        ≤ v.frameCount ∧
    process_video estimate keys video_path output_video_path v =
      process_video estimate keys video_path output_video_path
        { v with frames := v.frames.take v.frameCount } := by
  constructor
  · unfold process_video
    by_cases ho : v.opened = false
    · simp [ho]
    · simp only [ho, Bool.false_eq_true, if_false]
      exact (frame_loop_spec estimate v.frameCount v.frames keys).1
  · unfold process_video
    by_cases ho : v.opened = false
    · simp [ho]
    · simp [ho, initialize_video_writer,
        ← frame_loop_take estimate v.frameCount v.frames keys]

lemma process_video_trace_releases
    (estimate : Frame → Except (List Char) Image) (keys : List ℤ)
    (video_path output_video_path : List Char) (v : Video)
    (h : v.opened = true) :
    ∃ pre, (process_video estimate keys video_path output_video_path v).trace =
      pre ++ [Event.capReleased, Event.writerReleased, Event.windowsDestroyed] := by
  unfold process_video
  simp only [h, Bool.true_eq_false, if_false]
  exact ⟨(frame_loop estimate v.frameCount v.frames keys).events, rfl⟩

/-- The claim of C8: whenever the capture opened (so the per-video frame
loop runs at all), the trace of `process_video` ends with the release of
the input capture, the release of the output writer and the destruction of
the preview windows — for every frame stream (including exhaustion), every
key-press sequence (including the quit key) and every model stage
(including one that raises mid-loop), since the `finally` block appends
these releases on every exit path of the loop. -/
theorem process_video_releases_all_paths
    (estimate : Frame → Except (List Char) Image) (keys : List ℤ)
    (video_path output_video_path : List Char) (v : Video)
    (h : v.opened = true) :
    ∃ pre, (process_video estimate keys video_path output_video_path v).trace =
      pre ++ [Event.capReleased, Event.writerReleased, Event.windowsDestroyed] :=
  process_video_trace_releases estimate keys video_path output_video_path v h

/-- Witness for C8, on a concrete two-frame opened video with a mid-loop
model failure at the second frame. -/
theorem process_video_releases_all_paths_witness :
    (Video.mk true 2 30 4 3 [Frame.mk 3 4, Frame.mk 5 6]).opened = true ∧
    ∃ pre, (process_video
        (fun f => if f.height = 3 then Except.ok (Image.mk 1 1)
                  else Except.error "boom".toList)
        [] "in/a.mp4".toList "out/processed_a.mp4".toList
        (Video.mk true 2 30 4 3 [Frame.mk 3 4, Frame.mk 5 6])).trace =
      pre ++ [Event.capReleased, Event.writerReleased, Event.windowsDestroyed] :=
  ⟨rfl, process_video_releases_all_paths
    (fun f => if f.height = 3 then Except.ok (Image.mk 1 1)
              else Except.error "boom".toList)
    [] "in/a.mp4".toList "out/processed_a.mp4".toList
    (Video.mk true 2 30 4 3 [Frame.mk 3 4, Frame.mk 5 6]) rfl⟩

/-- The claim of C4: when the first video file of the batch fails to open,
`process_video` raises `IOError("Cannot open video ...")`, which is not
caught in `batch_process_videos`: the batch stops with that error after the
first entry, and the second video (and any further file) is never
processed — no output entry exists for it, whatever its own contents. -/
theorem batch_aborts_on_unopenable
    (estimate : Frame → Except (List Char) Image)
    (fsys : List Char → Video) (keys : List Char → List ℤ)
    (input_folder output_folder n1 n2 : List Char) (rest : List (List Char))
    (h1 : is_video_file n1 = true) (h2 : is_video_file n2 = true)
    (hopen : (fsys (path_join input_folder n1)).opened = false) :
    batch_process_videos estimate fsys keys input_folder output_folder
        (n1 :: n2 :: rest) =
      ([{ outputPath := path_join output_folder (processed_name n1),
          outcome := { error := some (cannot_open_msg (path_join input_folder n1)),
                       written := [], writerCfg := none, trace := [] } }],
       some (cannot_open_msg (path_join input_folder n1))) := by
  unfold batch_process_videos list_video_files
  rw [List.filter_cons, List.filter_cons]
  simp only [h1, h2, if_true]
  unfold run_videos
  simp [process_video, hopen]

/-- Witness for C4: two syntactically valid video names, the first opening
onto a failed capture. -/
theorem batch_aborts_on_unopenable_witness :
    batch_process_videos (ok_estimate (fun _ => Image.mk 1 1))
        (fun _ => Video.mk false 0 0 0 0 []) (fun _ => [])
        "in".toList "out".toList ("a.mp4".toList :: "b.mp4".toList :: []) =
      ([{ outputPath := path_join "out".toList (processed_name "a.mp4".toList),
          outcome := { error := some (cannot_open_msg (path_join "in".toList "a.mp4".toList)),
                       written := [], writerCfg := none, trace := [] } }],
       some (cannot_open_msg (path_join "in".toList "a.mp4".toList))) :=
  batch_aborts_on_unopenable (ok_estimate (fun _ => Image.mk 1 1))
    (fun _ => Video.mk false 0 0 0 0 []) (fun _ => [])
    "in".toList "out".toList "a.mp4".toList "b.mp4".toList []
    (by decide) (by decide) rfl

lemma frame_loop_quit (model : Frame → Image) :
    ∀ (ks0 : List ℤ) (k : ℤ) (krest : List ℤ) (n : ℕ) (fs : List Frame),
      (∀ x ∈ ks0, quit_key_pressed x = false) →
      quit_key_pressed k = true →
      ks0.length < n → ks0.length < fs.length →
      (frame_loop (ok_estimate model) n fs (ks0 ++ k :: krest)).error = none ∧
      (frame_loop (ok_estimate model) n fs (ks0 ++ k :: krest)).written.length =
        ks0.length + 1 := by
  intro ks0
  induction ks0 with
  | nil =>
      intro k krest n fs hno hq hn hf
      cases n with
      | zero => cases hn
      | succ n =>
          cases fs with
          | nil => cases hf
          | cons f fs =>
              have hpf : process_frame (ok_estimate model) f =
                  Except.ok (resize_depth_to_frame (apply_smoothing (model f)) f) := rfl
              simp only [List.nil_append, frame_loop, hpf]
              have hhead : ((k :: krest).headD (-1)) = k := rfl
              rw [hhead, if_pos hq]
              exact ⟨rfl, rfl⟩
  | cons a ks0 ih =>
      intro k krest n fs hno hq hn hf
      cases n with
      | zero => cases hn
      | succ n =>
          cases fs with
          | nil => cases hf
          | cons f fs =>
              have ha : quit_key_pressed a = false :=
                hno a (List.mem_cons_self a ks0)
              have hpf : process_frame (ok_estimate model) f =
                  Except.ok (resize_depth_to_frame (apply_smoothing (model f)) f) := rfl
              have hcons : (a :: ks0) ++ k :: krest = a :: (ks0 ++ k :: krest) := rfl
              rw [hcons]
              simp only [frame_loop, hpf]
              have hhead : ((a :: (ks0 ++ k :: krest)).headD (-1)) = a := rfl
              have hq' : ¬ quit_key_pressed ((a :: (ks0 ++ k :: krest)).headD (-1)) = true := by
                rw [hhead, ha]
                exact Bool.false_ne_true
              rw [if_neg hq']
              have htail : (a :: (ks0 ++ k :: krest)).tail = ks0 ++ k :: krest := rfl
              rw [htail]
              obtain ⟨ih1, ih2⟩ := ih k krest n fs
                (fun x hx => hno x (List.mem_cons_of_mem a hx))
                hq (Nat.lt_of_succ_lt_succ hn) (Nat.lt_of_succ_lt_succ hf)
              exact ⟨ih1, by
                show ((resize_depth_to_frame (apply_smoothing (model f)) f) ::
                  (frame_loop (ok_estimate model) n fs (ks0 ++ k :: krest)).written).length =
                  (a :: ks0).length + 1
                rw [List.length_cons, ih2, List.length_cons]⟩

/-- The claim of C7: if, while processing a video that opened normally, the
quit key is pressed at some iteration the loop reaches (no earlier key was
the quit key, the reported frame count and the stream both extend past that
iteration, the model succeeding), then the current video terminates
normally and early: no exception propagates, exactly the frames up to and
including the current one were written, the per-video resources are still
released, and the batch goes on to process the remaining files exactly as
it would have. -/
theorem quit_key_early_termination (model : Frame → Image)
    (fsys : List Char → Video) (keys : List Char → List ℤ)
    (input_folder output_folder name : List Char) (rest : List (List Char))
    (ks0 : List ℤ) (k : ℤ) (krest : List ℤ)
    (hkeys : keys name = ks0 ++ k :: krest)
    (hno : ∀ x ∈ ks0, quit_key_pressed x = false)
    (hq : quit_key_pressed k = true)
    (hv : is_video_file name = true)
    (hopen : (fsys (path_join input_folder name)).opened = true)
    (hn : ks0.length < (fsys (path_join input_folder name)).frameCount)
    (hf : ks0.length < (fsys (path_join input_folder name)).frames.length) :
    (process_video (ok_estimate model) (keys name) (path_join input_folder name)
        (path_join output_folder (processed_name name))
        (fsys (path_join input_folder name))).error = none ∧
    (process_video (ok_estimate model) (keys name) (path_join input_folder name)
        (path_join output_folder (processed_name name))
        (fsys (path_join input_folder name))).written.length = ks0.length + 1 ∧
    (∃ pre, (process_video (ok_estimate model) (keys name)
        (path_join input_folder name)
        (path_join output_folder (processed_name name))
        (fsys (path_join input_folder name))).trace =
      pre ++ [Event.capReleased, Event.writerReleased, Event.windowsDestroyed]) ∧
    batch_process_videos (ok_estimate model) fsys keys input_folder
        output_folder (name :: rest) =
      ({ outputPath := path_join output_folder (processed_name name),
         outcome := process_video (ok_estimate model) (keys name)
           (path_join input_folder name)
           (path_join output_folder (processed_name name))
           (fsys (path_join input_folder name)) } ::
         (batch_process_videos (ok_estimate model) fsys keys input_folder
           output_folder rest).1,
       (batch_process_videos (ok_estimate model) fsys keys input_folder
         output_folder rest).2) := by
  have hloop := frame_loop_quit model ks0 k krest
    (fsys (path_join input_folder name)).frameCount
    (fsys (path_join input_folder name)).frames hno hq hn hf
  rw [← hkeys] at hloop
  have herr : (process_video (ok_estimate model) (keys name)
      (path_join input_folder name)
      (path_join output_folder (processed_name name))
      (fsys (path_join input_folder name))).error = none := by
    unfold process_video
    simp only [hopen, Bool.true_eq_false, if_false]
    exact hloop.1
  have hlen : (process_video (ok_estimate model) (keys name)
      (path_join input_folder name)
      (path_join output_folder (processed_name name))
      (fsys (path_join input_folder name))).written.length = ks0.length + 1 := by
    unfold process_video
    simp only [hopen, Bool.true_eq_false, if_false]
    exact hloop.2
  refine ⟨herr, hlen,
    process_video_trace_releases _ _ _ _ _ hopen, ?_⟩
  unfold batch_process_videos list_video_files
  rw [List.filter_cons]
  simp only [hv, if_true]
  show run_videos (ok_estimate model) fsys keys input_folder output_folder
      (name :: List.filter is_video_file rest) = _
  simp only [run_videos, herr]

/-- Witness for C7: a three-frame opened video, quit key pressed at the
first iteration, an empty remaining batch. -/
theorem quit_key_early_termination_witness :
    (process_video (ok_estimate (fun _ => Image.mk 1 1)) [(113 : ℤ)]
        (path_join "in".toList "a.mp4".toList)
        (path_join "out".toList (processed_name "a.mp4".toList))
        (Video.mk true 3 30 4 3 [Frame.mk 3 4, Frame.mk 3 4, Frame.mk 3 4])).error
      = none ∧
    (process_video (ok_estimate (fun _ => Image.mk 1 1)) [(113 : ℤ)]
        (path_join "in".toList "a.mp4".toList)
        (path_join "out".toList (processed_name "a.mp4".toList))
        (Video.mk true 3 30 4 3 [Frame.mk 3 4, Frame.mk 3 4, Frame.mk 3 4])).written.length
      = 1 := by
  have h := quit_key_early_termination (fun _ => Image.mk 1 1)
    (fun _ => Video.mk true 3 30 4 3 [Frame.mk 3 4, Frame.mk 3 4, Frame.mk 3 4])
    (fun _ => [(113 : ℤ)]) "in".toList "out".toList "a.mp4".toList []
    [] 113 [] rfl (by intro x hx; cases hx) (by decide) (by decide)
    rfl (by decide) (by decide)
  exact ⟨h.1, h.2.1⟩

lemma frame_loop_ok_error (model : Frame → Image) :
    ∀ (n : ℕ) (fs : List Frame) (keys : List ℤ),
      (frame_loop (ok_estimate model) n fs keys).error = none := by
  intro n
  induction n with
  | zero => intro fs keys; rfl
  | succ n ih =>
      intro fs keys
      cases fs with
      | nil => rfl
      | cons f fs =>
          have hpf : process_frame (ok_estimate model) f =
              Except.ok (resize_depth_to_frame (apply_smoothing (model f)) f) := rfl
          simp only [frame_loop, hpf]
          by_cases hq : quit_key_pressed (keys.headD (-1)) = true
          · rw [if_pos hq]
          · rw [if_neg hq]
            exact ih fs keys.tail

lemma run_videos_all_open (model : Frame → Image)
    (fsys : List Char → Video) (keys : List Char → List ℤ)
    (input_folder output_folder : List Char) :
    ∀ l : List (List Char),
      (∀ nm ∈ l, (fsys (path_join input_folder nm)).opened = true) →
      run_videos (ok_estimate model) fsys keys input_folder output_folder l =
        (l.map (fun nm =>
          ({ outputPath := path_join output_folder (processed_name nm),
             outcome := process_video (ok_estimate model) (keys nm)
               (path_join input_folder nm)
               (path_join output_folder (processed_name nm))
               (fsys (path_join input_folder nm)) } : BatchEntry)), none) := by
  intro l
  induction l with
  | nil => intro h; rfl
  | cons nm rest ih =>
      intro h
      have hopen := h nm (List.mem_cons_self nm rest)
      have herr : (process_video (ok_estimate model) (keys nm)
          (path_join input_folder nm)
          (path_join output_folder (processed_name nm))
          (fsys (path_join input_folder nm))).error = none := by
        unfold process_video
        simp only [hopen, Bool.true_eq_false, if_false]
        exact frame_loop_ok_error model _ _ _
      simp only [run_videos, herr]
      rw [ih (fun x hx => h x (List.mem_cons_of_mem nm hx))]
      simp

/-- The claim of C5: when every filtered video opens (and the model does
not fail), the batch finishes without error and produces exactly one
output-writer entry per processed input video, in order: for the input
named `F` the output path is `output_folder/processed_F` (so the original
filename, extension included, is a suffix of the output name, keeping the
container format), and the writer is configured with fourcc `mp4v`, the
source's frame rate, the source's width and height, and `isColor=False`
(single-channel grayscale frames). -/
theorem batch_output_per_video (model : Frame → Image)
    (fsys : List Char → Video) (keys : List Char → List ℤ)
    (input_folder output_folder : List Char) (listing : List (List Char))
    (hopen : ∀ nm ∈ list_video_files listing,
      (fsys (path_join input_folder nm)).opened = true) :
    (batch_process_videos (ok_estimate model) fsys keys input_folder
        output_folder listing).2 = none ∧
    (batch_process_videos (ok_estimate model) fsys keys input_folder
        output_folder listing).1.length = (list_video_files listing).length ∧
    (∀ i nm, (list_video_files listing).get? i = some nm →
      ∃ entry, (batch_process_videos (ok_estimate model) fsys keys
          input_folder output_folder listing).1.get? i = some entry ∧
        entry.outputPath = path_join output_folder (processed_name nm) ∧
        nm <:+ processed_name nm ∧
        entry.outcome.writerCfg = some
          { path := path_join output_folder (processed_name nm),
            fourcc := "mp4v".toList,
            fps := (fsys (path_join input_folder nm)).fps,
            width := (fsys (path_join input_folder nm)).width,
            height := (fsys (path_join input_folder nm)).height,
            isColor := false }) := by
  have hrun := run_videos_all_open model fsys keys input_folder output_folder
    (list_video_files listing) hopen
  unfold batch_process_videos
  rw [hrun]
  refine ⟨rfl, by simp, ?_⟩
  intro i nm hi
  refine ⟨{ outputPath := path_join output_folder (processed_name nm),
            outcome := process_video (ok_estimate model) (keys nm)
              (path_join input_folder nm)
              (path_join output_folder (processed_name nm))
              (fsys (path_join input_folder nm)) },
    ?_, rfl, List.suffix_append _ _, ?_⟩
  · show (List.map _ (list_video_files listing)).get? i = _
    rw [List.get?_map, hi]
    rfl
  · have ho := hopen nm (List.get?_mem hi)
    show (process_video (ok_estimate model) (keys nm)
        (path_join input_folder nm)
        (path_join output_folder (processed_name nm))
        (fsys (path_join input_folder nm))).writerCfg = _
    unfold process_video
    simp only [ho, Bool.true_eq_false, if_false]
    rfl

/-- Witness for C5: a one-file listing whose video opens. -/
theorem batch_output_per_video_witness :
    (batch_process_videos (ok_estimate (fun _ => Image.mk 1 1))
        (fun _ => Video.mk true 1 30 4 3 [Frame.mk 3 4]) (fun _ => [])
        "in".toList "out".toList ["a.mp4".toList]).2 = none ∧
    (batch_process_videos (ok_estimate (fun _ => Image.mk 1 1))
        (fun _ => Video.mk true 1 30 4 3 [Frame.mk 3 4]) (fun _ => [])
        "in".toList "out".toList ["a.mp4".toList]).1.length = 1 := by
  have h := batch_output_per_video (fun _ => Image.mk 1 1)
    (fun _ => Video.mk true 1 30 4 3 [Frame.mk 3 4]) (fun _ => [])
    "in".toList "out".toList ["a.mp4".toList] (by decide)
  exact ⟨h.1, h.2.1⟩

lemma isSuffixOf_strLower_iff (e name : List Char) :
    List.isSuffixOf e (strLower name) = true ↔
      ∃ s, s <:+ name ∧ strLower s = e := by
  rw [List.isSuffixOf_iff_suffix]
  constructor
  · intro h
    refine ⟨name.drop (name.length - e.length), List.drop_suffix _ _, ?_⟩
    have hd := List.suffix_iff_eq_drop.mp h
    rw [strLower, List.length_map] at hd
    rw [strLower, List.map_drop]
    exact hd.symm
  · rintro ⟨s, hs, rfl⟩
    exact List.IsSuffix.map Char.toLower hs

lemma run_videos_entry_src (estimate : Frame → Except (List Char) Image)
    (fsys : List Char → Video) (keys : List Char → List ℤ)
    (input_folder output_folder : List Char) :
    ∀ (l : List (List Char)) (entry : BatchEntry),
      entry ∈ (run_videos estimate fsys keys input_folder output_folder l).1 →
      ∃ nm, nm ∈ l ∧ entry.outputPath =
        path_join output_folder (processed_name nm) := by
  intro l
  induction l with
  | nil =>
      intro entry h
      simp [run_videos] at h
  | cons nm rest ih =>
      intro entry h
      cases herr : (process_video estimate (keys nm) (path_join input_folder nm)
          (path_join output_folder (processed_name nm))
          (fsys (path_join input_folder nm))).error with
      | some e =>
          simp only [run_videos, herr] at h
          rw [List.mem_singleton] at h
          exact ⟨nm, List.mem_cons_self nm rest, by rw [h]⟩
      | none =>
          simp only [run_videos, herr] at h
          rw [List.mem_cons] at h
          rcases h with h | h
          · exact ⟨nm, List.mem_cons_self nm rest, by rw [h]⟩
          · obtain ⟨nm2, hmem, hpath⟩ := ih entry h
            exact ⟨nm2, List.mem_cons_of_mem nm hmem, hpath⟩

lemma path_join_name_inj (dir a b : List Char)
    (h : path_join dir a = path_join dir b) : a = b := by
  unfold path_join at h
  have h2 := List.append_cancel_left h
  injection h2

/-- The claim of C6: the batch driver selects exactly the directory
entries whose name, case-insensitively, ends in `.mp4`, `.avi` or `.mov`
(equivalently: some suffix of the name lowercases to one of the three
extensions); every batch output entry derives its path from one of the
selected names, and a file whose name does not match yields no output path
of any kind. -/
theorem batch_extension_filter (names : List (List Char)) (name : List Char)
    (estimate : Frame → Except (List Char) Image)
    (fsys : List Char → Video) (keys : List Char → List ℤ)
    (input_folder output_folder : List Char) :
    (name ∈ list_video_files names ↔
      name ∈ names ∧ ∃ s, s <:+ name ∧
        (strLower s = ".mp4".toList ∨ strLower s = ".avi".toList ∨
         strLower s = ".mov".toList)) ∧
    (∀ entry ∈ (batch_process_videos estimate fsys keys input_folder
        output_folder names).1,
      ∃ nm, nm ∈ names ∧ is_video_file nm = true ∧
        entry.outputPath = path_join output_folder (processed_name nm)) ∧
    (is_video_file name = false →
      ∀ entry ∈ (batch_process_videos estimate fsys keys input_folder
          output_folder names).1,
        entry.outputPath ≠ path_join output_folder (processed_name name)) := by
  have hchar : ∀ nm : List Char, is_video_file nm = true ↔
      ∃ s, s <:+ nm ∧
        (strLower s = ".mp4".toList ∨ strLower s = ".avi".toList ∨
         strLower s = ".mov".toList) := by
    intro nm
    unfold is_video_file
    rw [Bool.or_eq_true, Bool.or_eq_true]
    constructor
    · rintro ((h | h) | h)
      · obtain ⟨s, hs, he⟩ := (isSuffixOf_strLower_iff _ nm).mp h
        exact ⟨s, hs, Or.inl he⟩
      · obtain ⟨s, hs, he⟩ := (isSuffixOf_strLower_iff _ nm).mp h
        exact ⟨s, hs, Or.inr (Or.inl he)⟩
      · obtain ⟨s, hs, he⟩ := (isSuffixOf_strLower_iff _ nm).mp h
        exact ⟨s, hs, Or.inr (Or.inr he)⟩
    · rintro ⟨s, hs, he | he | he⟩
      · exact Or.inl (Or.inl ((isSuffixOf_strLower_iff _ nm).mpr ⟨s, hs, he⟩))
      · exact Or.inl (Or.inr ((isSuffixOf_strLower_iff _ nm).mpr ⟨s, hs, he⟩))
      · exact Or.inr ((isSuffixOf_strLower_iff _ nm).mpr ⟨s, hs, he⟩)
  have hsrc : ∀ entry ∈ (batch_process_videos estimate fsys keys input_folder
      output_folder names).1,
      ∃ nm, nm ∈ names ∧ is_video_file nm = true ∧
        entry.outputPath = path_join output_folder (processed_name nm) := by
    intro entry h
    obtain ⟨nm, hmem, hpath⟩ := run_videos_entry_src estimate fsys keys
      input_folder output_folder (list_video_files names) entry h
    rw [list_video_files, List.mem_filter] at hmem
    exact ⟨nm, hmem.1, hmem.2, hpath⟩
  refine ⟨?_, hsrc, ?_⟩
  · rw [list_video_files, List.mem_filter, hchar name]
  · intro hfalse entry h heq
    obtain ⟨nm, hmem, hvf, hpath⟩ := hsrc entry h
    rw [heq] at hpath
    have h2 := path_join_name_inj output_folder _ _ hpath
    rw [processed_name, processed_name] at h2
    have hn : name = nm := List.append_cancel_left h2
    rw [← hn, hfalse] at hvf
    cases hvf

/-- Witness for C6: a folder with one `.MP4` file (uppercase extension,
selected) and one `.txt` file (ignored, no output path derived from it). -/
theorem batch_extension_filter_witness :
    ("a.MP4".toList ∈ list_video_files ["a.MP4".toList, "b.txt".toList]) ∧
    ({ outputPath := path_join "out".toList (processed_name "a.MP4".toList),
       outcome := process_video (ok_estimate (fun _ => Image.mk 1 1)) []
         (path_join "in".toList "a.MP4".toList)
         (path_join "out".toList (processed_name "a.MP4".toList))
         (Video.mk true 1 30 4 3 [Frame.mk 3 4]) } : BatchEntry).outputPath ≠
      path_join "out".toList (processed_name "b.txt".toList) := by
  constructor
  · exact (batch_extension_filter ["a.MP4".toList, "b.txt".toList]
      "a.MP4".toList (ok_estimate (fun _ => Image.mk 1 1))
      (fun _ => Video.mk true 1 30 4 3 [Frame.mk 3 4]) (fun _ => [])
      "in".toList "out".toList).1.mpr
      ⟨by decide, ⟨".MP4".toList, by decide, Or.inl (by decide)⟩⟩
  · exact (batch_extension_filter ["a.MP4".toList, "b.txt".toList]
      "b.txt".toList (ok_estimate (fun _ => Image.mk 1 1))
      (fun _ => Video.mk true 1 30 4 3 [Frame.mk 3 4]) (fun _ => [])
      "in".toList "out".toList).2.2 (by decide) _ (by decide)

end DmapMaker
